import Mathlib

/- Shallow embedding of the Daily-Expense-Report audio service
   (the geminiService module): base64 encoding of the recorded audio blob,
   outbound request construction, the bounded retry wrapper, and the
   response cleaning / JSON parsing step.  Strings are modelled as lists
   of characters; the impure per-attempt API call is modelled as a
   function from the attempt index to its outcome. -/

namespace DailyExpense

/-- Characters of a string literal. -/
def sChars (s : String) : List Char := s.data

/-- The backquote character used by markdown code fences. -/
def bq : Char := Char.ofNat 96

/-- The closing code-fence literal of the source (three backquotes). -/
def fence : List Char := [bq, bq, bq]

/-- The opening code-fence literal with json tag used by the source. -/
def fenceJson : List Char := [bq, bq, bq, 'j', 's', 'o', 'n']

/-- ASCII whitespace, used both by the model of String.trim and by the
JSON parser's whitespace skipping. -/
def isWs (c : Char) : Bool := c = ' ' || c = '\t' || c = '\n' || c = '\r'

def trimLeft (s : List Char) : List Char := s.dropWhile isWs

def trimRight (s : List Char) : List Char := (s.reverse.dropWhile isWs).reverse

/-- Model of String.trim over character lists (ASCII whitespace). -/
def trim (s : List Char) : List Char := trimRight (trimLeft s)

/-- Model of String.startsWith over character lists. -/
def leadsWith : List Char → List Char → Bool
  | [], _ => true
  | _ :: _, [] => false
  | p :: ps, c :: cs => p = c && leadsWith ps cs

/-- Model of s.replace with a pattern anchored at the start of s and the
empty replacement: the leading occurrence of p is removed when present. -/
def stripLead (p s : List Char) : List Char :=
  if leadsWith p s then s.drop p.length else s

/-- Model of s.replace with a pattern anchored at the end of s and the
empty replacement: the trailing occurrence of p is removed when present. -/
def stripTail (p s : List Char) : List Char :=
  if leadsWith p.reverse s.reverse then (s.reverse.drop p.length).reverse else s

/-- Lines 130-136 of the service: trim the response text, then strip a
leading json code fence (or a plain fence) and a trailing fence. -/
def cleanText (raw : List Char) : List Char :=
  let t := trim raw
  if leadsWith fenceJson t then stripTail fence (stripLead fenceJson t)
  else if leadsWith fence t then stripTail fence (stripLead fence t)
  else t

/-- JSON values, as produced by the model of JSON.parse.  Number literals
are kept as their source characters (the code performs no arithmetic on
them). -/
inductive Json where
  | null : Json
  | bool (b : Bool) : Json
  | num (lit : List Char) : Json
  | str (s : List Char) : Json
  | arr (elems : List Json) : Json
  | obj (members : List (List Char × Json)) : Json

def skipWs (s : List Char) : List Char := s.dropWhile isWs

def isDigit (c : Char) : Bool := '0' ≤ c && c ≤ '9'

/-- JSON escape characters handled by the model (unicode escapes are not
modelled; no claim depends on them). -/
def escChar (d : Char) : Option Char :=
  if d = '"' then some '"'
  else if d = '\\' then some '\\'
  else if d = '/' then some '/'
  else if d = 'n' then some '\n'
  else if d = 't' then some '\t'
  else if d = 'r' then some '\r'
  else if d = 'b' then some (Char.ofNat 8)
  else if d = 'f' then some (Char.ofNat 12)
  else none

/-- Parse the remainder of a JSON string literal (after the opening
quote), returning the decoded characters and the rest of the input. -/
def parseStringRest : List Char → Option (List Char × List Char)
  | [] => none
  | c :: rest =>
    if c = '"' then some ([], rest)
    else if c = '\\' then
      match rest with
      | [] => none
      | d :: rest2 =>
        match escChar d with
        | none => none
        | some ch =>
          match parseStringRest rest2 with
          | none => none
          | some p => some (ch :: p.1, p.2)
    else
      match parseStringRest rest with
      | none => none
      | some p => some (c :: p.1, p.2)

def takeDigits : List Char → List Char × List Char
  | [] => ([], [])
  | c :: cs =>
    if isDigit c then
      let p := takeDigits cs
      (c :: p.1, p.2)
    else ([], c :: cs)

def parseFrac : List Char → Option (List Char × List Char)
  | '.' :: r =>
    let p := takeDigits r
    if p.1.isEmpty then none else some ('.' :: p.1, p.2)
  | r => some ([], r)

def parseExpPart : List Char → Option (List Char × List Char)
  | [] => some ([], [])
  | c :: r =>
    if c = 'e' || c = 'E' then
      let sg : List Char × List Char :=
        match r with
        | '+' :: r2 => (['+'], r2)
        | '-' :: r2 => (['-'], r2)
        | r2 => ([], r2)
      let p := takeDigits sg.2
      if p.1.isEmpty then none else some (c :: (sg.1 ++ p.1), p.2)
    else some ([], c :: r)

/-- Parse a JSON number literal, keeping its characters. -/
def parseNumber (cs : List Char) : Option (List Char × List Char) :=
  let sg : List Char × List Char :=
    match cs with
    | '-' :: r => (['-'], r)
    | r => ([], r)
  let ip := takeDigits sg.2
  if ip.1.isEmpty then none
  else
    match parseFrac ip.2 with
    | none => none
    | some fr =>
      match parseExpPart fr.2 with
      | none => none
      | some ex => some (sg.1 ++ ip.1 ++ fr.1 ++ ex.1, ex.2)

/-- The three mutually recursive JSON parsing functions at a given fuel
level, packed so the recursion is a plain structural recursion on the
fuel (and thus kernel-reducible). -/
structure ParserPack where
  val : List Char → Option (Json × List Char)
  elems : List Char → Option (List Json × List Char)
  members : List Char → Option (List (List Char × Json) × List Char)

def failPack : ParserPack :=
  ⟨fun _ => none, fun _ => none, fun _ => none⟩

def stepVal (p : ParserPack) (cs : List Char) : Option (Json × List Char) :=
  match skipWs cs with
  | [] => none
  | c :: rest =>
    if c = '\x7b' then
      match skipWs rest with
      | '\x7d' :: r => some (Json.obj [], r)
      | r => (p.members r).map fun q => (Json.obj q.1, q.2)
    else if c = '[' then
      match skipWs rest with
      | ']' :: r => some (Json.arr [], r)
      | r => (p.elems r).map fun q => (Json.arr q.1, q.2)
    else if c = '"' then
      (parseStringRest rest).map fun q => (Json.str q.1, q.2)
    else if c = 't' then
      if leadsWith ['r', 'u', 'e'] rest then some (Json.bool true, rest.drop 3) else none
    else if c = 'f' then
      if leadsWith ['a', 'l', 's', 'e'] rest then some (Json.bool false, rest.drop 4) else none
    else if c = 'n' then
      if leadsWith ['u', 'l', 'l'] rest then some (Json.null, rest.drop 3) else none
    else if c = '-' || isDigit c then
      (parseNumber (c :: rest)).map fun q => (Json.num q.1, q.2)
    else none

def stepElems (p : ParserPack) (cs : List Char) : Option (List Json × List Char) :=
  match p.val cs with
  | none => none
  | some (v, r) =>
    match skipWs r with
    | ',' :: r2 => (p.elems r2).map fun q => (v :: q.1, q.2)
    | ']' :: r2 => some ([v], r2)
    | _ => none

def stepMembers (p : ParserPack) (cs : List Char) :
    Option (List (List Char × Json) × List Char) :=
  match skipWs cs with
  | '"' :: rest =>
    match parseStringRest rest with
    | none => none
    | some (key, r) =>
      match skipWs r with
      | ':' :: r2 =>
        match p.val r2 with
        | none => none
        | some (v, r3) =>
          match skipWs r3 with
          | ',' :: r4 => (p.members r4).map fun q => ((key, v) :: q.1, q.2)
          | '\x7d' :: r4 => some ([(key, v)], r4)
          | _ => none
      | _ => none
  | _ => none

def parsers : Nat → ParserPack
  | 0 => failPack
  | f + 1 =>
    let p := parsers f
    ⟨stepVal p, stepElems p, stepMembers p⟩

/-- Parse a complete JSON text whose surrounding whitespace has already
been removed; trailing non-whitespace input is an error. -/
def parseTop (u : List Char) : Option Json :=
  match (parsers (u.length + 1)).val u with
  | some (v, r) => if (skipWs r).isEmpty then some v else none
  | none => none

/-- Model of JSON.parse: surrounding whitespace is ignored, then the text
must be a single JSON value. -/
def jsonParse (s : List Char) : Option Json := parseTop (trim s)

/-- The response-cleaning-and-parsing step of the service (lines 128-138):
strip code fences, then JSON.parse. -/
def parseGeminiText (s : List Char) : Option Json := jsonParse (cleanText s)

/-- A response text wrapped in a json code fence. -/
def wrapJsonFence (t : List Char) : List Char :=
  fenceJson ++ '\n' :: (t ++ '\n' :: fence)

def jLookup (key : List Char) : List (List Char × Json) → Option Json
  | [] => none
  | (k, v) :: rest => if k = key then some v else jLookup key rest

def isStrField (ms : List (List Char × Json)) (key : List Char) : Bool :=
  match jLookup key ms with
  | some (Json.str _) => true
  | _ => false

def isNumField (ms : List (List Char × Json)) (key : List Char) : Bool :=
  match jLookup key ms with
  | some (Json.num _) => true
  | _ => false

/-- Shape of an ExpenseItem: item string, amount number, category string. -/
def isExpenseItemJ : Json → Bool
  | Json.obj ms =>
    isStrField ms (sChars ("item")) && isNumField ms (sChars ("amount")) &&
      isStrField ms (sChars ("category"))
  | _ => false

/-- Shape of an ExpenseResponse: transcription, translation, expenses
array of ExpenseItems, totalAmount, currency. -/
def isExpenseRespJ : Json → Bool
  | Json.obj ms =>
    isStrField ms (sChars ("transcription")) && isStrField ms (sChars ("translation")) &&
      (match jLookup (sChars ("expenses")) ms with
       | some (Json.arr es) => es.all isExpenseItemJ
       | _ => false) &&
      isNumField ms (sChars ("totalAmount")) && isStrField ms (sChars ("currency"))
  | _ => false

/-- A text is a well-formed ExpenseResponse JSON text when JSON.parse
accepts it and the result has the ExpenseResponse shape. -/
def wellFormedExpense (t : List Char) : Bool :=
  match jsonParse t with
  | some v => isExpenseRespJ v
  | none => false

/-- Observable trace of one run of the retry wrapper: the final outcome,
how many times the wrapped operation was invoked, the delays slept before
each retry, and the errors of the failed attempts in order.  Each failed
attempt logs its error (console.error in the attempt's catch block)
before rethrowing it, so loggedErrors is exactly the log. -/
structure RetryTrace (ε τ : Type) where
  result : Except ε τ
  attempts : Nat
  delays : List Nat
  loggedErrors : List ε

/-- Lines 25-36 of the service.  The impure operation is modelled as a
function from the attempt index to its outcome; the source's
`if (retries > 0) { ...; retryOperation(operation, retries - 1, delay * 2) }`
is the successor case of the match on retries. -/
def retryOperation {ε τ : Type} (op : Nat → Except ε τ) (retries delay start : Nat) :
    RetryTrace ε τ :=
  match op start with
  | Except.ok v => ⟨Except.ok v, 1, [], []⟩
  | Except.error e =>
    match retries with
    | r + 1 =>
      let tr := retryOperation op r (delay * 2) (start + 1)
      ⟨tr.result, tr.attempts + 1, delay :: tr.delays, e :: tr.loggedErrors⟩
    | 0 => ⟨Except.error e, 1, [], [e]⟩

/-- The model response, as seen by the attempt body: response.text is
either absent or a string. -/
structure ModelResponse where
  text : Option (List Char)

/-- Errors an attempt can raise: an error thrown by the generateContent
call itself, the "Empty response from Gemini" error, or a JSON.parse
failure. -/
inductive GemError (ε : Type) where
  | thrown (e : ε) : GemError ε
  | emptyResponse : GemError ε
  | parseFailure : GemError ε

/-- Lines 96-146: the per-attempt operation.  The Bool records whether
the JSON.parse step was reached.  The source's `if (response.text)` tests
JS truthiness, so an absent text and an empty-string text take the same
branch.  The catch block logs each error (console.error) and rethrows it
unchanged. -/
def geminiAttempt {ε : Type} (call : Except ε ModelResponse) :
    Except (GemError ε) Json × Bool :=
  match call with
  | Except.error e => (Except.error (GemError.thrown e), false)
  | Except.ok resp =>
    match resp.text with
    | none => (Except.error GemError.emptyResponse, false)
    | some s =>
      if s.isEmpty then (Except.error GemError.emptyResponse, false)
      else
        match jsonParse (cleanText s) with
        | some v => (Except.ok v, true)
        | none => (Except.error GemError.parseFailure, true)

/-- Errors of the whole processAudioWithGemini call: a rejection of the
blobToBase64 read (awaited before the retry block, hence never retried),
or the error surfaced by the retry wrapper. -/
inductive AudioError (ρ ε : Type) where
  | readFailed (e : ρ) : AudioError ρ ε
  | attemptFailed (e : GemError ε) : AudioError ρ ε

/-- Observable trace of processAudioWithGemini: outcome, number of
invocations of the external model call, and the retry delays slept. -/
structure ProcessTrace (ρ ε : Type) where
  result : Except (AudioError ρ ε) Json
  modelCalls : Nat
  retryDelays : List Nat

/-- Lines 38-147: await blobToBase64, then run the attempt body under
retryOperation with the default budget (2 retries, 1000ms initial delay).
The encoding outcome and the per-attempt call outcomes are inputs of the
model. -/
def processAudioWithGemini {ρ ε : Type} (enc : Except ρ (List Char))
    (calls : Nat → Except ε ModelResponse) : ProcessTrace ρ ε :=
  match enc with
  | Except.error e => ⟨Except.error (AudioError.readFailed e), 0, []⟩
  | Except.ok _b64 =>
    let tr := retryOperation (fun i => (geminiAttempt (calls i)).1) 2 1000 0
    ⟨match tr.result with
      | Except.ok v => Except.ok v
      | Except.error e => Except.error (AudioError.attemptFailed e),
     tr.attempts, tr.delays⟩

/-- The default MIME type of the outbound request. -/
def webm : List Char := ['a', 'u', 'd', 'i', 'o', '/', 'w', 'e', 'b', 'm']

/-- The inlineData part of the outbound request (lines 103-107). -/
structure InlineData where
  mimeType : List Char
  data : List Char

/-- Line 104: `mimeType: audioBlob.type || 'audio/webm'` — the empty
string is falsy in JS, so an unspecified type defaults to audio/webm. -/
def buildInlineData (blobType b64 : List Char) : InlineData :=
  ⟨if blobType.isEmpty then webm else blobType, b64⟩

/-- The base64 alphabet. -/
def base64Table : List Char :=
  sChars ("ABCDEFGHIJKLMNOPQRSTUVWXYZabcdefghijklmnopqrstuvwxyz0123456789+/")

def b64c (n : Nat) : Char := base64Table.getD n 'A'

/-- RFC 4648 base64 encoding of a byte sequence, with padding — the
encoding FileReader.readAsDataURL uses for the data-URL payload. -/
def base64Encode : List Nat → List Char
  | [] => []
  | [a] => [b64c (a / 4), b64c (a % 4 * 16), '=', '=']
  | [a, b] => [b64c (a / 4), b64c (a % 4 * 16 + b / 16), b64c (b % 16 * 4), '=']
  | a :: b :: c :: rest =>
    b64c (a / 4) :: b64c (a % 4 * 16 + b / 16) :: b64c (b % 16 * 4 + c / 64) ::
      b64c (c % 64) :: base64Encode rest

def dataHeader : List Char := ['d', 'a', 't', 'a', ':']

def b64Marker : List Char := [';', 'b', 'a', 's', 'e', '6', '4', ',']

/-- Modelled platform behaviour: FileReader.readAsDataURL yields
data:MIME;base64,PAYLOAD for a blob of the given MIME type and bytes. -/
def dataURL (mime : List Char) (bytes : List Nat) : List Char :=
  dataHeader ++ mime ++ (b64Marker ++ base64Encode bytes)

def takeUntil (sep : Char) : List Char → List Char
  | [] => []
  | c :: cs => if c = sep then [] else c :: takeUntil sep cs

def afterFirst (sep : Char) : List Char → Option (List Char)
  | [] => none
  | c :: cs => if c = sep then some cs else afterFirst sep cs

/-- JS s.split(sep)[1]: the segment between the first and second
occurrence of sep, absent when sep does not occur. -/
def splitSecond (sep : Char) (s : List Char) : Option (List Char) :=
  (afterFirst sep s).map (takeUntil sep)

/-- Lines 11-22: read the blob as a data URL and keep split(',')[1]. -/
def blobToBase64 (mime : List Char) (bytes : List Nat) : Option (List Char) :=
  splitSecond ',' (dataURL mime bytes)

/-- A concrete well-formed ExpenseResponse JSON text, used as witness
input. -/
def tW : List Char :=
  sChars ("\x7b\"transcription\":\"200 ka aaloo\",\"translation\":\"potatoes for 200\",\"expenses\":[\x7b\"item\":\"potatoes\",\"amount\":200,\"category\":\"Food\"\x7d],\"totalAmount\":200,\"currency\":\"INR\"\x7d")

/-- A concrete always-failing operation, used as witness input. -/
def failOp : Nat → Except Nat Unit := fun _ => Except.error 7

set_option maxRecDepth 8000

/- ------------------------------------------------------------------ -/
/- Helper lemmas about the string primitives                           -/
/- ------------------------------------------------------------------ -/

theorem dropWhile_idem {α : Type} (p : α → Bool) (l : List α) :
    (l.dropWhile p).dropWhile p = l.dropWhile p := by
  induction l with
  | nil => rfl
  | cons c l2 ih =>
    cases hp : p c <;> simp [List.dropWhile_cons, hp, ih]

theorem dropWhile_append {α : Type} (p : α → Bool) (a b : List α) :
    (a ++ b).dropWhile p =
      if (a.dropWhile p).isEmpty then b.dropWhile p else a.dropWhile p ++ b := by
  induction a with
  | nil => simp
  | cons c a2 ih =>
    cases hp : p c <;> simp [List.dropWhile_cons, hp, ih]

theorem trimLeft_cons_ws (c : Char) (s : List Char) (h : isWs c = true) :
    trimLeft (c :: s) = trimLeft s := by
  simp [trimLeft, List.dropWhile_cons, h]

theorem trimLeft_cons_not (c : Char) (s : List Char) (h : isWs c = false) :
    trimLeft (c :: s) = c :: s := by
  simp [trimLeft, List.dropWhile_cons, h]

theorem trimRight_append_not (s : List Char) (c : Char) (h : isWs c = false) :
    trimRight (s ++ [c]) = s ++ [c] := by
  simp [trimRight, List.dropWhile_cons, h]

theorem trimRight_append_ws (s : List Char) (c : Char) (h : isWs c = true) :
    trimRight (s ++ [c]) = trimRight s := by
  simp [trimRight, List.dropWhile_cons, h]

theorem trim_cons_ws (c : Char) (s : List Char) (h : isWs c = true) :
    trim (c :: s) = trim s := by
  rw [trim, trim, trimLeft_cons_ws c s h]

theorem trim_append_ws (s : List Char) (c : Char) (h : isWs c = true) :
    trim (s ++ [c]) = trim s := by
  induction s with
  | nil => simp [trim, trimLeft, trimRight, List.dropWhile_cons, h]
  | cons d s2 ih =>
    cases hd : isWs d with
    | true =>
      rw [show (d :: s2) ++ [c] = d :: (s2 ++ [c]) from rfl,
        trim_cons_ws d _ hd, trim_cons_ws d s2 hd]
      exact ih
    | false =>
      rw [show (d :: s2) ++ [c] = d :: (s2 ++ [c]) from rfl]
      rw [trim, trimLeft_cons_not d _ hd, trim, trimLeft_cons_not d s2 hd]
      rw [show d :: (s2 ++ [c]) = (d :: s2) ++ [c] from rfl]
      exact trimRight_append_ws (d :: s2) c h

theorem trimLeft_idem (s : List Char) : trimLeft (trimLeft s) = trimLeft s :=
  dropWhile_idem isWs s

theorem trimRight_idem (s : List Char) : trimRight (trimRight s) = trimRight s := by
  simp [trimRight, dropWhile_idem]

theorem dropWhile_length_le {α : Type} (p : α → Bool) (l : List α) :
    (l.dropWhile p).length ≤ l.length := by
  induction l with
  | nil => simp
  | cons c l2 ih =>
    cases hp : p c with
    | false => simp [List.dropWhile_cons, hp]
    | true =>
      simp [List.dropWhile_cons, hp]
      omega

theorem trimLeft_trimRight (s : List Char) (h : trimLeft s = s) :
    trimLeft (trimRight s) = trimRight s := by
  cases s with
  | nil => rfl
  | cons c s2 =>
    have hc : isWs c = false := by
      cases hic : isWs c with
      | false => rfl
      | true =>
        exfalso
        rw [trimLeft_cons_ws c s2 hic] at h
        have hlen := congrArg List.length h
        have hle : (trimLeft s2).length ≤ s2.length := by
          simpa [trimLeft] using dropWhile_length_le isWs s2
        simp at hlen
        omega
    have hcase : trimRight (c :: s2) = [] ∨ ∃ y, trimRight (c :: s2) = c :: y := by
      have hrw : (c :: s2).reverse = s2.reverse ++ [c] := by simp
      rw [trimRight, hrw, dropWhile_append]
      cases he : (s2.reverse.dropWhile isWs).isEmpty with
      | true =>
        right
        refine ⟨[], ?_⟩
        simp [he, List.dropWhile_cons, hc]
      | false =>
        right
        refine ⟨(s2.reverse.dropWhile isWs).reverse, ?_⟩
        simp [he]
    rcases hcase with h0 | ⟨y, hy⟩
    · rw [h0]; rfl
    · rw [hy, trimLeft_cons_not c y hc]

theorem trim_idem (s : List Char) : trim (trim s) = trim s := by
  have h1 : trimLeft (trimLeft s) = trimLeft s := trimLeft_idem s
  rw [trim, trim, trimLeft_trimRight (trimLeft s) h1, trimRight_idem]

theorem leadsWith_append (p x : List Char) : leadsWith p (p ++ x) = true := by
  induction p with
  | nil => rfl
  | cons c p2 ih => simp [leadsWith, ih]

theorem leadsWith_head (c : Char) (p s : List Char)
    (h : leadsWith (c :: p) s = true) : ∃ s2, s = c :: s2 := by
  cases s with
  | nil => simp [leadsWith] at h
  | cons d s2 =>
    simp [leadsWith] at h
    exact ⟨s2, by rw [h.1]⟩

/- ------------------------------------------------------------------ -/
/- Helper lemmas about the JSON parser and the fence stripping         -/
/- ------------------------------------------------------------------ -/

theorem parsersVal_bq (f : Nat) (s : List Char) : (parsers f).val (bq :: s) = none := by
  cases f with
  | zero => rfl
  | succ f2 => rfl

theorem parseTop_bq (s : List Char) : parseTop (bq :: s) = none := by
  simp [parseTop, parsersVal_bq]

theorem cleanText_of_parse (t : List Char) (v : Json) (h : jsonParse t = some v) :
    cleanText t = trim t := by
  have hbq : ∀ s2, trim t ≠ bq :: s2 := by
    intro s2 hs
    rw [jsonParse, hs, parseTop_bq] at h
    exact Option.noConfusion h
  have h1 : leadsWith fenceJson (trim t) = false := by
    cases hl : leadsWith fenceJson (trim t) with
    | false => rfl
    | true =>
      exfalso
      obtain ⟨s2, hs⟩ := leadsWith_head bq ['j', 's', 'o', 'n'] (trim t)
        (by
          have hfj : leadsWith fenceJson (trim t) =
              leadsWith (bq :: [bq, bq, 'j', 's', 'o', 'n']) (trim t) := rfl
          rw [hfj] at hl
          obtain ⟨u1, hu1⟩ := leadsWith_head bq _ _ hl
          exact absurd hu1 (hbq u1))
      exact hbq s2 hs
  have h2 : leadsWith fence (trim t) = false := by
    cases hl : leadsWith fence (trim t) with
    | false => rfl
    | true =>
      exfalso
      obtain ⟨s2, hs⟩ := leadsWith_head bq [bq, bq] (trim t) hl
      exact hbq s2 hs
  simp [cleanText, h1, h2]

theorem trim_wrapJsonFence (t : List Char) :
    trim (wrapJsonFence t) = wrapJsonFence t := by
  have hcons : wrapJsonFence t =
      bq :: ([bq, bq, 'j', 's', 'o', 'n'] ++ ('\n' :: (t ++ '\n' :: fence))) := rfl
  have hl : trimLeft (wrapJsonFence t) = wrapJsonFence t := by
    rw [hcons, trimLeft_cons_not bq _ (by decide)]
  have hsnoc : wrapJsonFence t =
      (fenceJson ++ '\n' :: (t ++ ['\n', bq, bq])) ++ [bq] := by
    simp [wrapJsonFence, fence]
  have hr : trimRight (wrapJsonFence t) = wrapJsonFence t := by
    rw [hsnoc, trimRight_append_not _ bq (by decide)]
  rw [trim, hl, hr]

theorem stripLead_wrapJsonFence (t : List Char) :
    stripLead fenceJson (wrapJsonFence t) = '\n' :: (t ++ '\n' :: fence) := by
  have hw : wrapJsonFence t = fenceJson ++ ('\n' :: (t ++ '\n' :: fence)) := rfl
  rw [stripLead, hw, if_pos (leadsWith_append fenceJson _), List.drop_left]

theorem stripTail_fence (t : List Char) :
    stripTail fence ('\n' :: (t ++ '\n' :: fence)) = '\n' :: (t ++ ['\n']) := by
  have hrev : ('\n' :: (t ++ '\n' :: fence)).reverse =
      bq :: bq :: bq :: ('\n' :: (t.reverse ++ ['\n'])) := by
    simp [fence]
  rw [stripTail, hrev]
  rw [if_pos (by simp [fence, leadsWith])]
  simp [fence]

theorem cleanText_wrapJsonFence (t : List Char) :
    cleanText (wrapJsonFence t) = '\n' :: (t ++ ['\n']) := by
  have hlw : leadsWith fenceJson (wrapJsonFence t) = true := by
    have hw : wrapJsonFence t = fenceJson ++ ('\n' :: (t ++ '\n' :: fence)) := rfl
    rw [hw]
    exact leadsWith_append fenceJson _
  rw [cleanText]
  simp only [trim_wrapJsonFence, hlw, if_true]
  rw [stripLead_wrapJsonFence, stripTail_fence]

/- ------------------------------------------------------------------ -/
/- Unfolding lemmas for the retry wrapper                              -/
/- ------------------------------------------------------------------ -/

theorem retryOperation_eq_ok {ε τ : Type} (op : Nat → Except ε τ)
    (retries delay start : Nat) (v : τ) (h : op start = Except.ok v) :
    retryOperation op retries delay start = ⟨Except.ok v, 1, [], []⟩ := by
  rw [retryOperation.eq_def, h]

theorem retryOperation_eq_err_zero {ε τ : Type} (op : Nat → Except ε τ)
    (delay start : Nat) (e : ε) (h : op start = Except.error e) :
    retryOperation op 0 delay start = ⟨Except.error e, 1, [], [e]⟩ := by
  rw [retryOperation.eq_def, h]

theorem retryOperation_eq_err_succ {ε τ : Type} (op : Nat → Except ε τ)
    (r delay start : Nat) (e : ε) (h : op start = Except.error e) :
    retryOperation op (r + 1) delay start =
      ⟨(retryOperation op r (delay * 2) (start + 1)).result,
       (retryOperation op r (delay * 2) (start + 1)).attempts + 1,
       delay :: (retryOperation op r (delay * 2) (start + 1)).delays,
       e :: (retryOperation op r (delay * 2) (start + 1)).loggedErrors⟩ := by
  rw [retryOperation.eq_def, h]

/- ------------------------------------------------------------------ -/
/- Helper lemmas about base64 encoding and the data-URL split          -/
/- ------------------------------------------------------------------ -/

theorem b64c_mem : ∀ n, n < 64 → b64c n ∈ base64Table := by decide

theorem base64Encode_mem : ∀ (bs : List Nat), (∀ b ∈ bs, b < 256) →
    ∀ c ∈ base64Encode bs, c ∈ base64Table ∨ c = '='
  | [] => by
    intro _ c hc
    simp [base64Encode] at hc
  | [a] => by
    intro h c hc
    have ha : a < 256 := h a (by simp)
    simp only [base64Encode, List.mem_cons, List.not_mem_nil, or_false] at hc
    rcases hc with h1 | h1 | h1 | h1
    · exact Or.inl (h1 ▸ b64c_mem _ (by omega))
    · exact Or.inl (h1 ▸ b64c_mem _ (by omega))
    · exact Or.inr h1
    · exact Or.inr h1
  | [a, b] => by
    intro h c hc
    have ha : a < 256 := h a (by simp)
    have hb : b < 256 := h b (by simp)
    simp only [base64Encode, List.mem_cons, List.not_mem_nil, or_false] at hc
    rcases hc with h1 | h1 | h1 | h1
    · exact Or.inl (h1 ▸ b64c_mem _ (by omega))
    · exact Or.inl (h1 ▸ b64c_mem _ (by omega))
    · exact Or.inl (h1 ▸ b64c_mem _ (by omega))
    · exact Or.inr h1
  | a :: b :: c :: rest => by
    intro h ch hc
    have ha : a < 256 := h a (by simp)
    have hb : b < 256 := h b (by simp)
    have hc2 : c < 256 := h c (by simp)
    simp only [base64Encode, List.mem_cons] at hc
    rcases hc with h1 | h1 | h1 | h1 | h1
    · exact Or.inl (h1 ▸ b64c_mem _ (by omega))
    · exact Or.inl (h1 ▸ b64c_mem _ (by omega))
    · exact Or.inl (h1 ▸ b64c_mem _ (by omega))
    · exact Or.inl (h1 ▸ b64c_mem _ (by omega))
    · exact base64Encode_mem rest (fun x hx => h x (by simp [hx])) ch h1

theorem base64Encode_len : ∀ (bs : List Nat), (base64Encode bs).length % 4 = 0
  | [] => by simp [base64Encode]
  | [a] => by simp [base64Encode]
  | [a, b] => by simp [base64Encode]
  | a :: b :: c :: rest => by
    have ih := base64Encode_len rest
    simp [base64Encode]
    omega

theorem afterFirst_append (sep : Char) (a s : List Char) :
    sep ∉ a → afterFirst sep (a ++ s) = afterFirst sep s := by
  induction a with
  | nil => intro _; rfl
  | cons c a2 ih =>
    intro h
    have hc : ¬(c = sep) := by
      intro hcc
      exact h (by simp [hcc])
    simp only [List.cons_append, afterFirst, if_neg hc]
    exact ih (fun hm => h (by simp [hm]))

theorem takeUntil_no_sep (sep : Char) (s : List Char) (h : sep ∉ s) :
    takeUntil sep s = s := by
  induction s with
  | nil => rfl
  | cons c s2 ih =>
    have hc : ¬(c = sep) := by
      intro hcc
      exact h (by simp [hcc])
    simp only [takeUntil, if_neg hc]
    rw [ih (fun hm => h (by simp [hm]))]

/- ------------------------------------------------------------------ -/
/- Claim theorems                                                      -/
/- ------------------------------------------------------------------ -/

/-- Claim C1: for an operation that fails on every invocation, the retry
wrapper with its default budget (2 retries, 1000ms initial delay) invokes
the operation exactly 3 times, sleeps 1000ms and 2000ms between attempts,
logs the three errors, and surfaces the error of the third attempt to the
caller unchanged. -/
theorem retryOperation_allFail {ε τ : Type} (err : Nat → ε) :
    retryOperation (fun i => (Except.error (err i) : Except ε τ)) 2 1000 0 =
      ⟨Except.error (err 2), 3, [1000, 2000], [err 0, err 1, err 2]⟩ := rfl

/-- Claim C2: for an operation that fails on its first two invocations
and succeeds on the third, the retry wrapper with its default budget
returns the successful result after exactly 2 delayed retries, the
delays being 1000ms before the first retry and 2000ms before the
second. -/
theorem retryOperation_failFailOk {ε τ : Type} (err : Nat → ε) (v : τ) :
    retryOperation (fun i => if i < 2 then Except.error (err i) else Except.ok v) 2 1000 0 =
      ⟨Except.ok v, 3, [1000, 2000], [err 0, err 1]⟩ := rfl

/-- Claim C3: for every well-formed ExpenseResponse JSON text t, the
response-cleaning-and-parsing step yields the same parsed structure on t
wrapped in a json code fence as on the unwrapped t. -/
theorem parseGeminiText_fence_invariant (t : List Char)
    (h : wellFormedExpense t = true) :
    parseGeminiText (wrapJsonFence t) = parseGeminiText t := by
  obtain ⟨v, hv⟩ : ∃ v, jsonParse t = some v := by
    unfold wellFormedExpense at h
    cases hp : jsonParse t with
    | none => rw [hp] at h; simp at h
    | some v => exact ⟨v, rfl⟩
  have hL : parseGeminiText (wrapJsonFence t) = parseTop (trim t) := by
    rw [parseGeminiText, cleanText_wrapJsonFence, jsonParse,
      trim_cons_ws '\n' _ (by decide), trim_append_ws t '\n' (by decide)]
  have hR : parseGeminiText t = parseTop (trim t) := by
    rw [parseGeminiText, cleanText_of_parse t v hv, jsonParse, trim_idem]
  rw [hL, hR]

/-- Witness for C3 at a concrete well-formed ExpenseResponse text. -/
theorem parseGeminiText_fence_invariant_witness :
    wellFormedExpense tW = true ∧
      parseGeminiText (wrapJsonFence tW) = parseGeminiText tW :=
  ⟨by decide, parseGeminiText_fence_invariant tW (by decide)⟩

/-- Claim C4: a model response containing no text makes the per-attempt
operation raise the empty-response error without reaching the JSON parse
step. -/
theorem geminiAttempt_noText (ε : Type) :
    geminiAttempt (Except.ok ⟨none⟩ : Except ε ModelResponse) =
      (Except.error GemError.emptyResponse, false) := rfl

/-- Claim C5: when the audio-read (blobToBase64) step fails, the failure
propagates to the caller unchanged as the rejected result, with zero
model calls and zero retries. -/
theorem processAudio_readFail {ρ ε : Type} (e : ρ)
    (calls : Nat → Except ε ModelResponse) :
    processAudioWithGemini (Except.error e) calls =
      ⟨Except.error (AudioError.readFailed e), 0, []⟩ := rfl

/-- Claim C6: for audio inputs (MIME types contain no comma, bytes are
bytes), the encoder returns exactly the base64 encoding of the blob's
raw bytes, everything up to and including the first comma of the data
URL having been removed; the output is valid base64 (alphabet plus
padding, length a multiple of 4) and contains no header characters. -/
theorem blobToBase64_valid (mime : List Char) (bytes : List Nat)
    (hm : ',' ∉ mime) (hb : ∀ b ∈ bytes, b < 256) :
    blobToBase64 mime bytes = some (base64Encode bytes) ∧
      (∀ c ∈ base64Encode bytes, c ∈ base64Table ∨ c = '=') ∧
      (base64Encode bytes).length % 4 = 0 ∧
      (∀ c ∈ base64Encode bytes, c ≠ ',' ∧ c ≠ ':' ∧ c ≠ ';') := by
  have hmem := base64Encode_mem bytes hb
  have hsep : ',' ∉ base64Encode bytes := by
    intro hc
    rcases hmem ',' hc with h1 | h1
    · exact absurd h1 (by decide)
    · exact absurd h1 (by decide)
  refine ⟨?_, hmem, base64Encode_len bytes, ?_⟩
  · rw [blobToBase64, splitSecond, dataURL]
    have hshape : dataHeader ++ mime ++ (b64Marker ++ base64Encode bytes) =
        (dataHeader ++ (mime ++ [';', 'b', 'a', 's', 'e', '6', '4'])) ++
          (',' :: base64Encode bytes) := by
      simp [dataHeader, b64Marker]
    rw [hshape, afterFirst_append ',' _ _ ?notin]
    case notin =>
      intro hcc
      simp only [List.mem_append] at hcc
      rcases hcc with h1 | h1 | h1
      · exact absurd h1 (by decide)
      · exact hm h1
      · exact absurd h1 (by decide)
    simp [afterFirst, takeUntil_no_sep ',' _ hsep]
  · intro c hc
    rcases hmem c hc with h1 | h1
    · exact (by decide : ∀ x ∈ base64Table, x ≠ ',' ∧ x ≠ ':' ∧ x ≠ ';') c h1
    · rw [h1]
      refine ⟨by decide, by decide, by decide⟩

/-- Witness for C6 at a concrete audio input. -/
theorem blobToBase64_valid_witness :
    blobToBase64 webm [72, 101, 108] = some (base64Encode [72, 101, 108]) ∧
      (∀ c ∈ base64Encode [72, 101, 108], c ∈ base64Table ∨ c = '=') ∧
      (base64Encode [72, 101, 108]).length % 4 = 0 ∧
      (∀ c ∈ base64Encode [72, 101, 108], c ≠ ',' ∧ c ≠ ':' ∧ c ≠ ';') :=
  blobToBase64_valid webm [72, 101, 108] (by decide) (by decide)

/-- Claim C7: a blob with unspecified (empty) MIME type yields a request
carrying audio/webm, and a blob with a non-empty MIME type yields a
request carrying that type unchanged. -/
theorem buildInlineData_mime (b64 : List Char) :
    (buildInlineData [] b64).mimeType = webm ∧
      ∀ t : List Char, t ≠ [] → (buildInlineData t b64).mimeType = t := by
  constructor
  · rfl
  · intro t ht
    have hne : t.isEmpty = false := by
      cases t with
      | nil => exact absurd rfl ht
      | cons c t2 => rfl
    simp [buildInlineData, hne]

/-- Witness for C7 at a concrete non-empty MIME type. -/
theorem buildInlineData_mime_witness :
    (buildInlineData (sChars ("audio/mp4")) []).mimeType = sChars ("audio/mp4") :=
  (buildInlineData_mime []).2 (sChars ("audio/mp4")) (by decide)

/-- Claim C8: when the retry wrapper surfaces an error, every failed
attempt logged its error (one log entry per attempt), and the surfaced
error is exactly the last logged error — the very value raised by the
final failing attempt, not wrapped or replaced. -/
theorem retryOperation_logging {ε τ : Type} (op : Nat → Except ε τ)
    (retries delay start : Nat) (e : ε)
    (h : (retryOperation op retries delay start).result = Except.error e) :
    (retryOperation op retries delay start).loggedErrors.length =
        (retryOperation op retries delay start).attempts ∧
      (retryOperation op retries delay start).loggedErrors.getLast? = some e := by
  induction retries generalizing delay start with
  | zero =>
    cases hop : op start with
    | ok v =>
      rw [retryOperation_eq_ok op 0 delay start v hop] at h
      simp at h
    | error e2 =>
      rw [retryOperation_eq_err_zero op delay start e2 hop] at h ⊢
      simp only [Except.error.injEq] at h
      subst h
      exact ⟨rfl, rfl⟩
  | succ r ih =>
    cases hop : op start with
    | ok v =>
      rw [retryOperation_eq_ok op (r + 1) delay start v hop] at h
      simp at h
    | error e2 =>
      rw [retryOperation_eq_err_succ op r delay start e2 hop] at h ⊢
      simp only at h
      obtain ⟨h1, h2⟩ := ih (delay * 2) (start + 1) h
      refine ⟨by simp [h1], ?_⟩
      cases hlog : (retryOperation op r (delay * 2) (start + 1)).loggedErrors with
      | nil =>
        rw [hlog] at h2
        simp at h2
      | cons x xs =>
        rw [hlog] at h2
        simp only [List.getLast?_cons_cons]
        exact h2

/-- Witness for C8 at a concrete always-failing operation. -/
theorem retryOperation_logging_witness :
    (retryOperation failOp 2 1000 0).loggedErrors.length =
        (retryOperation failOp 2 1000 0).attempts ∧
      (retryOperation failOp 2 1000 0).loggedErrors.getLast? = some 7 :=
  retryOperation_logging failOp 2 1000 0 7 rfl

/-- Claim C9: the retry wrapper is a total terminating function — it is
defined by structural recursion on the retry budget — and for every
operation and budget it invokes the operation at most retries + 1 times
and always either returns a success value or raises an error. -/
theorem retryOperation_bounded {ε τ : Type} (op : Nat → Except ε τ)
    (retries delay start : Nat) :
    (retryOperation op retries delay start).attempts ≤ retries + 1 ∧
      ((∃ v, (retryOperation op retries delay start).result = Except.ok v) ∨
        (∃ e, (retryOperation op retries delay start).result = Except.error e)) := by
  constructor
  · induction retries generalizing delay start with
    | zero =>
      cases hop : op start with
      | ok v => rw [retryOperation_eq_ok op 0 delay start v hop]
      | error e => rw [retryOperation_eq_err_zero op delay start e hop]
    | succ r ih =>
      cases hop : op start with
      | ok v =>
        rw [retryOperation_eq_ok op (r + 1) delay start v hop]
        simp
      | error e =>
        rw [retryOperation_eq_err_succ op r delay start e hop]
        have := ih (delay * 2) (start + 1)
        simp only
        omega
  · cases hres : (retryOperation op retries delay start).result with
    | ok v => exact Or.inl ⟨v, rfl⟩
    | error e => exact Or.inr ⟨e, rfl⟩

/-- Claim C10: a model response whose text is the empty string is treated
exactly like a response with no text: the empty-response error is raised
and the parse step is not reached, because the guard tests JS truthiness
of the text rather than its presence. -/
theorem geminiAttempt_emptyText (ε : Type) :
    geminiAttempt (Except.ok ⟨some []⟩ : Except ε ModelResponse) =
        geminiAttempt (Except.ok ⟨none⟩ : Except ε ModelResponse) ∧
      geminiAttempt (Except.ok ⟨some []⟩ : Except ε ModelResponse) =
        (Except.error GemError.emptyResponse, false) :=
  ⟨rfl, rfl⟩

end DailyExpense
